import Mathlib

/-!
Shallow embedding of the codexable extension system.

Covered source files:
* `src/unnamed/part_003` — the message-history extension (History Store):
  text cleaning, per-session history log and cursor persistence, and the
  handlers for `history_seed` / `history_push` / `history_prev` /
  `history_next` / `history_first` / `history_last` / `history_delete`.
* `src/extensions/extension-client.js` — the extension host server:
  first-match dispatch, config-payload merging and the line protocol loop.

JS strings are modelled as `List Char`; file contents are modelled by the
data the code itself reads/writes from them (the history log file by the
list of its stored `text` record fields, the cursor state file by the
stored integer).  All file I/O is modelled as succeeding; read failures
correspond to the `none` / empty values of the modelled inputs, which the
theorems quantify over.
-/

namespace MessageHistory

/-- Whitespace class of JavaScript (`trim`, regex `\s`) restricted to the
characters relevant here: ASCII whitespace, NBSP and BOM. -/
def isJsSpace (c : Char) : Bool :=
  c == ' ' || c == '\t' || c == '\n' || c == '\r' ||
  c == Char.ofNat 11 || c == Char.ofNat 12 || c == Char.ofNat 160 ||
  c == Char.ofNat 0xfeff

/-- `text.replace(/\r\n?/g, "\n")` from `cleanText` in part_003:
every `\r\n` pair and every lone `\r` becomes `\n`. -/
def normCRLF : List Char → List Char
  | [] => []
  | [c] => if c = '\r' then ['\n'] else [c]
  | c1 :: c2 :: rest =>
    if c1 = '\r' then
      if c2 = '\n' then '\n' :: normCRLF rest
      else '\n' :: normCRLF (c2 :: rest)
    else c1 :: normCRLF (c2 :: rest)

/-- JavaScript `String.prototype.trim` on the modelled character set. -/
def trimChars (l : List Char) : List Char :=
  ((l.dropWhile isJsSpace).reverse.dropWhile isJsSpace).reverse

/-- `CODEX_HISTORY_IGNORE_SYSTEM_PROMPTS` is unset by default, so the
flag computed at the top of part_003 is `false`. -/
def ignoreSystemPrompts : Bool := false

/-- `l.take p.length == p`, i.e. JavaScript `startsWith`. -/
def startsWithChars (p l : List Char) : Bool :=
  l.take p.length == p

def agentsMarker : List Char := "# AGENTS.md instructions for".toList

def envContextMarker : List Char := "<environment_context>".toList

/-- `isSystemGenerated` from part_003 (lines 355-362). -/
def isSystemGenerated (text : List Char) : Bool :=
  let trimmed := trimChars text
  if trimmed.isEmpty then false
  else startsWithChars agentsMarker trimmed || startsWithChars envContextMarker trimmed

/-- `cleanText` from part_003 (lines 327-334): normalize line endings,
trim, drop empty results (and system prompts when the flag is set). -/
def cleanText (text : List Char) : Option (List Char) :=
  let normalized := normCRLF text
  let trimmed := trimChars normalized
  if trimmed.isEmpty then none
  else if ignoreSystemPrompts && isSystemGenerated trimmed then none
  else some trimmed

/-- `normalize_key` from part_003 (lines 336-340): the cleaned text with
every whitespace run collapsed to a single space, `none` when cleaning
yields nothing. -/
def collapseWs : List Char → List Char
  | [] => []
  | [c] => if isJsSpace c then [' '] else [c]
  | c1 :: c2 :: rest =>
    if isJsSpace c1 && isJsSpace c2 then collapseWs (c2 :: rest)
    else (if isJsSpace c1 then ' ' else c1) :: collapseWs (c2 :: rest)

def normalize_key (text : List Char) : Option (List Char) :=
  (cleanText text).map collapseWs

/-- Loop of `collapse_consecutive_unique` from part_003 (lines 342-353),
with the mutable `lastKey` threaded explicitly. -/
def collapseCUGo (lastKey : Option (List Char)) : List (List Char) → List (List Char)
  | [] => []
  | item :: rest =>
    match cleanText item with
    | none => collapseCUGo lastKey rest
    | some cleaned =>
      if some (collapseWs cleaned) = lastKey then collapseCUGo lastKey rest
      else cleaned :: collapseCUGo (some (collapseWs cleaned)) rest

def collapse_consecutive_unique (l : List (List Char)) : List (List Char) :=
  collapseCUGo none l

/-- `dedup_entries` from part_003 (lines 315-317). -/
def dedup_entries (l : List (List Char)) : List (List Char) :=
  collapse_consecutive_unique l

/-- Per-line filter of `readEntries` (part_003 lines 216-238): a stored
record contributes its cleaned text when the raw text trims non-empty and
cleaning succeeds. -/
def readEntriesFilter (s : List Char) : Option (List Char) :=
  if (trimChars s).isEmpty then none else cleanText s

/-- `readEntries` from part_003, with the log file modelled by the list of
the `text` fields of its records. -/
def readEntries (file : List (List Char)) : List (List Char) :=
  collapse_consecutive_unique (file.filterMap readEntriesFilter)

/-- Two entries differ under the normalized comparison key. -/
def keyNe (a b : List Char) : Prop := normalize_key a ≠ normalize_key b

/-- The `lastKey` value after the `collapse_consecutive_unique` loop has
processed a list, starting from `k`. -/
def goKey (k : Option (List Char)) : List (List Char) → Option (List Char)
  | [] => k
  | item :: rest =>
    match cleanText item with
    | none => goKey k rest
    | some cleaned =>
      if some (collapseWs cleaned) = k then goKey k rest
      else goKey (some (collapseWs cleaned)) rest

inductive ContentItem where
  | str (s : List Char)
  | objText (t : List Char)
  | other
deriving DecidableEq

inductive UserContent where
  | str (s : List Char)
  | arr (items : List ContentItem)
  | obj (text : List Char)
  | other
deriving DecidableEq

/-- `parseUserContent` from part_003 (lines 160-176). -/
def parseUserContent : UserContent → Option (List Char)
  | .str s => some s
  | .arr items =>
    let parts := items.filterMap fun it =>
      match it with
      | .str s => some s
      | .objText t => some t
      | .other => none
    if parts.length > 0 then some parts.flatten else none
  | .obj t => some t
  | .other => none

/-- A transcript line: `eventUser` is a line with `type == "event_msg"`
and `payload.type == "user_message"` (carrying the payload's optional
string `message` field and optional `content`); `responseUser` is a line
with `type == "response_item"` and `payload.role == "user"`; everything
else (other shapes, unparsable JSON, blank lines) is `other`. -/
inductive RLine where
  | eventUser (message : Option (List Char)) (content : Option UserContent)
  | responseUser (content : Option UserContent)
  | other
deriving DecidableEq

/-- `extractEventUserText` from part_003 (lines 300-308): a string
`message` field wins, else `content` is parsed, else `null`. -/
def extractEventUserText (message : Option (List Char)) (content : Option UserContent) :
    Option (List Char) :=
  match message with
  | some m => some m
  | none =>
    match content with
    | some c => parseUserContent c
    | none => none

/-- `extractResponseUserText` from part_003 (lines 310-313). -/
def extractResponseUserText (content : Option UserContent) : Option (List Char) :=
  match content with
  | some c => parseUserContent c
  | none => none

/-- The `eventMessages` list built by `readRolloutUserMessages`
(part_003 lines 193-198): cleaned texts of event-shaped user messages. -/
def eventMessages (lines : List RLine) : List (List Char) :=
  lines.filterMap fun l =>
    match l with
    | .eventUser m c => (extractEventUserText m c).bind cleanText
    | _ => none

/-- The `responseMessages` list built by `readRolloutUserMessages`
(part_003 lines 200-205): cleaned texts of response-item user messages. -/
def responseMessages (lines : List RLine) : List (List Char) :=
  lines.filterMap fun l =>
    match l with
    | .responseUser c => (extractResponseUserText c).bind cleanText
    | _ => none

/-- `readRolloutUserMessages` from part_003 (lines 178-214): event-shaped
messages win; response-item messages are used only when no event-shaped
message exists; consecutive duplicates are collapsed.  A missing or
unreadable transcript corresponds to `lines = []`. -/
def readRolloutUserMessages (lines : List RLine) : List (List Char) :=
  if (eventMessages lines).length > 0 then
    collapse_consecutive_unique (eventMessages lines)
  else
    collapse_consecutive_unique (responseMessages lines)

structure HState where
  file : List (List Char)
  cursorFile : Option Int
deriving DecidableEq

/-- A handler response: `status` plus the optional `text` (prev/next/
first/last) and `next_text` (delete) fields. -/
structure HResp where
  status : String
  text : Option (List Char)
  next_text : Option (List Char)
deriving DecidableEq

def skipResp : HResp := ⟨"skip", none, none⟩

/-- `readCursor` from part_003 (lines 265-275): the stored integer forced
to be ≥ 0, or the supplied default. -/
def readCursor (stored : Option Int) (defaultCursor : Int) : Int :=
  match stored with
  | some c => max 0 c
  | none => defaultCursor

/-- `clampCursor` from part_003 (lines 293-298).  The modelled cursor is
always an integer, so the `Number.isInteger` guard is always satisfied. -/
def clampCursor (cursor : Int) (length : Int) : Int :=
  if cursor < 0 then 0
  else if cursor > length then length
  else cursor

/-- `appendEntry` from part_003 (lines 250-263): append the cleaned text
unless it equals the current last visible entry under the normalized key.
(The early `typeof`/`trim` guard is subsumed by `cleanText` returning
`none`.) -/
def appendEntry (file : List (List Char)) (text : List Char) : List (List Char) :=
  match cleanText text with
  | none => file
  | some cleaned =>
    let current := readEntries file
    match current.getLast? with
    | some last =>
      if normalize_key last = normalize_key cleaned then file else file ++ [cleaned]
    | none => file ++ [cleaned]

/-- `handleSeed` from part_003 (lines 364-391).  `transcript` is the
parsed rollout at `session_path` (`none` when no `session_path` is in the
request); `incoming` models the request's `entries` list (non-arrays and
missing lists are `[]`).  Rollout mirroring and logging have no effect on
the session state and are not modelled. -/
def handleSeed (transcript : Option (List RLine)) (incoming : List (List Char))
    (_s : HState) : HState × HResp :=
  let fromSessionFile :=
    match transcript with
    | some lines => readRolloutUserMessages lines
    | none => []
  let merged :=
    if fromSessionFile.length > 0 then fromSessionFile
    else if incoming.length > 0 then incoming
    else []
  let deduped := dedup_entries merged
  (⟨deduped, some (deduped.length : Int)⟩, ⟨"ok", none, none⟩)

/-- `handlePush` from part_003 (lines 393-408).  `rawText` is the text
resolved by `normalizedText` from the request payload. -/
def handlePush (rawText : List Char) (s : HState) : HState × HResp :=
  let text := (cleanText rawText).getD []
  if text.isEmpty then (s, skipResp)
  else
    let file2 := appendEntry s.file text
    let entries := readEntries file2
    (⟨file2, some (entries.length : Int)⟩, ⟨"ok", none, none⟩)

/-- The lazy reconstruction shared by prev/next/delete (part_003 lines
413-421, 464-472 and 522-530): when the log file is empty, rebuild it
from the last known session path (modelled by `rollout`, `none` when no
path is remembered) and persist the cursor at the new length. -/
def reconstructWithCursor (rollout : Option (List RLine)) (s : HState) :
    HState × List (List Char) :=
  let entries0 := readEntries s.file
  match rollout with
  | some lines =>
    if entries0.isEmpty then
      let e := readRolloutUserMessages lines
      (⟨e, some (e.length : Int)⟩, e)
    else (s, entries0)
  | none => (s, entries0)

/-- The lazy reconstruction of first/last (part_003 lines 443-450 and
499-506), which rewrites the log file but does not touch the cursor. -/
def reconstructNoCursor (rollout : Option (List RLine)) (s : HState) :
    HState × List (List Char) :=
  let entries0 := readEntries s.file
  match rollout with
  | some lines =>
    if entries0.isEmpty then
      let e := readRolloutUserMessages lines
      (⟨e, s.cursorFile⟩, e)
    else (s, entries0)
  | none => (s, entries0)

/-- `handlePrev` from part_003 (lines 410-438). -/
def handlePrev (rollout : Option (List RLine)) (s : HState) : HState × HResp :=
  let r := reconstructWithCursor rollout s
  let s1 := r.1
  let entries := r.2
  if entries.isEmpty then (s1, skipResp)
  else
    let cursor := clampCursor (readCursor s1.cursorFile (entries.length : Int))
      (entries.length : Int)
    -- the source's `if (cursor >= entries.length) cursor = entries.length`
    -- is a no-op after clamping
    let idx : Int := if cursor ≤ 0 then 0 else cursor - 1
    (⟨s1.file, some idx⟩, ⟨"ok", some ((entries.get? idx.toNat).getD []), none⟩)

/-- `handleNext` from part_003 (lines 461-494). -/
def handleNext (rollout : Option (List RLine)) (s : HState) : HState × HResp :=
  let r := reconstructWithCursor rollout s
  let s1 := r.1
  let entries := r.2
  if entries.isEmpty then (s1, skipResp)
  else
    let cursor := clampCursor (readCursor s1.cursorFile (entries.length : Int))
      (entries.length : Int)
    if cursor ≥ (entries.length : Int) - 1 then
      (⟨s1.file, some (entries.length : Int)⟩, ⟨"ok", some [], none⟩)
    else
      let idx : Int := cursor + 1
      (⟨s1.file, some idx⟩, ⟨"ok", some ((entries.get? idx.toNat).getD []), none⟩)

/-- `handleFirst` from part_003 (lines 440-459). -/
def handleFirst (rollout : Option (List RLine)) (s : HState) : HState × HResp :=
  let r := reconstructNoCursor rollout s
  let s1 := r.1
  let entries := r.2
  if entries.isEmpty then (s1, skipResp)
  else
    (⟨s1.file, some 0⟩, ⟨"ok", some ((entries.get? 0).getD []), none⟩)

/-- `handleLast` from part_003 (lines 496-516). -/
def handleLast (rollout : Option (List RLine)) (s : HState) : HState × HResp :=
  let r := reconstructNoCursor rollout s
  let s1 := r.1
  let entries := r.2
  if entries.isEmpty then (s1, skipResp)
  else
    let idx := entries.length - 1
    (⟨s1.file, some (idx : Int)⟩, ⟨"ok", some ((entries.get? idx).getD []), none⟩)

/-- The target-index resolution of `handleDelete` (part_003 lines
537-552): a valid explicit `index` wins, else the first entry whose
normalized key matches the request text's, else `-1`. -/
def resolveDeleteIdx (reqIndex : Option Int) (rawText : List Char)
    (entries : List (List Char)) : Int :=
  let incomingIdx : Option Int :=
    match reqIndex with
    | some i => if i ≥ 0 then some i else none
    | none => none
  let ntext := (cleanText rawText).getD []
  let targetKey := normalize_key ntext
  let deleteIdx0 : Int :=
    match incomingIdx with
    | some i => if i < (entries.length : Int) then i else -1
    | none => -1
  if deleteIdx0 < 0 then
    match targetKey with
    | some k =>
      match entries.findIdx? (fun e => normalize_key e = some k) with
      | some j => (j : Int)
      | none => -1
    | none => -1
  else deleteIdx0

/-- `handleDelete` from part_003 (lines 518-583).  `reqIndex` models the
request's `index` field (`none` when absent or not an integer); `rawText`
the payload text used for key matching.  `entries.splice(deleteIdx, 1)` is
`take deleteIdx ++ drop (deleteIdx + 1)`.  The best-effort removal of the
matching line from the external rollout transcript and the re-mirroring
(lines 572-579) touch only the rollout files, not the session state
modelled here. -/
def handleDelete (rollout : Option (List RLine)) (reqIndex : Option Int)
    (rawText : List Char) (s : HState) : HState × HResp :=
  let r := reconstructWithCursor rollout s
  let s1 := r.1
  let entries := r.2
  if entries.isEmpty then (s1, skipResp)
  else
    let deleteIdx : Int := resolveDeleteIdx reqIndex rawText entries
    if deleteIdx < 0 ∨ deleteIdx ≥ (entries.length : Int) then (s1, skipResp)
    else
      let dIdx : Nat := deleteIdx.toNat
      let entries2 := entries.take dIdx ++ entries.drop (dIdx + 1)
      let cursor0 := clampCursor (readCursor s1.cursorFile (entries2.length : Int))
        (entries2.length : Int)
      let cursor1 := if cursor0 > (dIdx : Int) then cursor0 - 1 else cursor0
      let cursor2 := if cursor1 > (entries2.length : Int) then (entries2.length : Int)
        else cursor1
      (⟨entries2, some cursor2⟩, ⟨"ok", none, some ((entries2.get? dIdx).getD [])⟩)

/-- One History Store request, carrying the parts of the request and of
the file system that the corresponding handler reads.  `other` is any
unrecognized action (the `default` arm of `dispatch`). -/
inductive HAction where
  | seed (transcript : Option (List RLine)) (incoming : List (List Char))
  | push (rawText : List Char)
  | prev (rollout : Option (List RLine))
  | next (rollout : Option (List RLine))
  | first (rollout : Option (List RLine))
  | last (rollout : Option (List RLine))
  | delete (rollout : Option (List RLine)) (reqIndex : Option Int) (rawText : List Char)
  | other

/-- `dispatch` from part_003 (lines 647-666). -/
def dispatch : HAction → HState → HState × HResp
  | .seed t i => handleSeed t i
  | .push raw => handlePush raw
  | .prev ro => handlePrev ro
  | .next ro => handleNext ro
  | .first ro => handleFirst ro
  | .last ro => handleLast ro
  | .delete ro i raw => handleDelete ro i raw
  | .other => fun s => (s, skipResp)

/-- Run a sequence of History Store actions on one session. -/
def runActions (acts : List HAction) (s : HState) : HState :=
  acts.foldl (fun st a => (dispatch a st).1) s

/-- A fresh session: no log file, no cursor sidecar. -/
def initState : HState := ⟨[], none⟩

/-- The History Log of a session state: what any History Store action
sees when it reads the session's log file back. -/
def sessionLog (s : HState) : List (List Char) := readEntries s.file

/-- The cursor invariant: whenever a cursor is persisted, it lies in
`[0, length]` of the session's Log. -/
def cursorOk (s : HState) : Prop :=
  match s.cursorFile with
  | none => True
  | some c => 0 ≤ c ∧ c ≤ ((sessionLog s).length : Int)

/-- The History Store actions named by the dedup invariant:
`history_seed`, `history_push` and `history_delete`. -/
def isSeedPushDelete : HAction → Bool
  | .seed _ _ => true
  | .push _ => true
  | .delete _ _ _ => true
  | _ => false

end MessageHistory

namespace ExtensionClient

/-- A handler's response as `handleFirstMatch` inspects it:
`status`, optional `text` and optional error `message`. -/
structure CResp where
  status : String
  text : Option (List Char)
  message : Option (List Char)
deriving DecidableEq

/-- The outcome of invoking one handler on a fixed request: the handler
either returns a value (`ret none` models a falsy return) or throws. -/
inductive HOutcome where
  | ret (resp : Option CResp)
  | thrown (msg : List Char)
deriving DecidableEq

/-- `handleFirstMatch` from extension-client.js (lines 202-216), over the
outcome list of the registered handlers in registry order.  The second
component counts how many handlers were invoked: a falsy or skip response
moves on to the next handler, any other response or a thrown error stops
the loop immediately. -/
def handleFirstMatch : List HOutcome → CResp × Nat
  | [] => (⟨"skip", none, none⟩, 0)
  | .ret none :: rest =>
    let r := handleFirstMatch rest
    (r.1, r.2 + 1)
  | .ret (some resp) :: rest =>
    if resp.status = "skip" then
      let r := handleFirstMatch rest
      (r.1, r.2 + 1)
    else (resp, 1)
  | .thrown m :: _rest => (⟨"error", none, some m⟩, 1)

/-- An outcome the first-match loop passes over: a falsy response or one
with status `skip`. -/
def isSkipOutcome : HOutcome → Bool
  | .ret none => true
  | .ret (some r) => r.status == "skip"
  | .thrown _ => false

/-- A handler's config payload: a JS object given by its `Object.entries`
list in insertion order — `none` marks a key explicitly set to
`undefined` — or a truthy non-object value. -/
inductive ConfigPayload (α : Type) where
  | obj (entries : List (List Char × Option α))
  | nonObj
deriving DecidableEq

/-- `merged[k] = v` on a JS object modelled as its ordered entry list:
an existing key is updated in place, a new key is appended. -/
def setKey {α : Type} : List (List Char × α) → List Char → α → List (List Char × α)
  | [], k, v => [(k, v)]
  | p :: rest, k, v => if p.1 = k then (k, v) :: rest else p :: setKey rest k v

/-- Property access `merged[k]` on the modelled object. -/
def lookupKey {α : Type} (k : List Char) : List (List Char × α) → Option α
  | [] => none
  | p :: rest => if p.1 = k then some p.2 else lookupKey k rest

/-- The inner loop of `mergeConfigPayloads` (extension-client.js lines
164-168): overlay one payload's entries, skipping `undefined` values. -/
def mergeEntries {α : Type} (m : List (List Char × α)) :
    List (List Char × Option α) → List (List Char × α)
  | [] => m
  | e :: rest =>
    match e.2 with
    | none => mergeEntries m rest
    | some v => mergeEntries (setKey m e.1 v) rest

/-- The outer loop of `mergeConfigPayloads` (lines 162-169): non-object
payloads contribute nothing. -/
def mergePayloadsGo {α : Type} (m : List (List Char × α)) :
    List (ConfigPayload α) → List (List Char × α)
  | [] => m
  | .obj es :: rest => mergePayloadsGo (mergeEntries m es) rest
  | .nonObj :: rest => mergePayloadsGo m rest

/-- `mergeConfigPayloads` from extension-client.js (lines 160-171). -/
def mergeConfigPayloads {α : Type} (payloads : List (ConfigPayload α)) :
    List (List Char × α) :=
  mergePayloadsGo [] payloads

/-- The outcome of asking one handler for its config contribution
(`handleConfig`, lines 175-184): it throws, or answers with a status and
an optional (truthy) payload. -/
inductive ConfigOutcome (α : Type) where
  | thrown
  | resp (status : String) (payload : Option (ConfigPayload α))

/-- `handleConfig` from extension-client.js (lines 173-186): collect the
payloads of handlers that answered `ok` with a truthy payload (thrown
handlers are logged and excluded) and answer `ok` with the merge. -/
def handleConfig {α : Type} (outcomes : List (ConfigOutcome α)) :
    String × List (List Char × α) :=
  let payloads := outcomes.filterMap fun o =>
    match o with
    | .thrown => none
    | .resp st p => if st = "ok" then p else none
  ("ok", mergeConfigPayloads payloads)

/-- The last defined (non-`undefined`) value an entry list assigns to a
key; used to state the merge precedence. -/
def lastDefined {α : Type} (k : List Char) :
    List (List Char × Option α) → Option α
  | [] => none
  | e :: rest =>
    match lastDefined k rest with
    | some v => some v
    | none => if e.1 = k then e.2 else none

/-- Drop the `undefined`-valued entries of a payload. -/
def stripUndefined {α : Type} : ConfigPayload α → ConfigPayload α
  | .obj es => .obj (es.filter fun e => e.2.isSome)
  | .nonObj => .nonObj

/-- An input line of the control connection after the newline split
(`handleLine`, extension-client.js lines 252-289): it failed
`JSON.parse`; or it parsed to the JSON value `null`, on which the very
first property access `req.log_path` throws a TypeError; or it parsed to
any other value, whose `log_path` / `id` / `action` property accesses
are safe — `valid` carries the optional `id` and the `action` (a missing
or non-string `action` routes like any unreserved action and is covered
by the quantified `action`; `log_path` handling only retargets the
diagnostic log). -/
inductive LineInput where
  | malformed
  | parsedNull
  | valid (id : Option (List Char)) (action : String)
deriving DecidableEq

/-- A response written back on the socket: `{ id, ...resp }`. -/
structure WireResp where
  id : Option (List Char)
  status : String
  text : Option (List Char)
  message : Option (List Char)
deriving DecidableEq

/-- What one call of `handleLine` does to the outside world: the
responses it writes and whether it exits the process. -/
structure LineResult where
  writes : List WireResp
  exits : Bool
deriving DecidableEq

/-- `handleLine` from extension-client.js (lines 252-289).  A line that
fails `JSON.parse` is logged and dropped — the function returns without
writing anything and without touching the connection.  A line parsing to
`null` throws a TypeError at `req.log_path` (line 260) before anything is
written; the async function's rejection is unhandled at the call site
(line 232), so the process dies (the installed `uncaughtException`
handler exits it) — no response, `exits = true`.  For any other parsed
value: `shutdown` answers ok and exits; `config` and `notify` always
answer ok (`handleConfig` / `handleNotify` never fail as a whole; the
merged config payload is not carried in `WireResp` — no modelled claim
depends on it); every other action is answered with the first-match
result over the registered handlers' outcomes. -/
def handleLine (input : LineInput) (handlers : List HOutcome) : LineResult :=
  match input with
  | .malformed => ⟨[], false⟩
  | .parsedNull => ⟨[], true⟩
  | .valid id action =>
    if action = "shutdown" then ⟨[⟨id, "ok", none, none⟩], true⟩
    else if action = "config" then ⟨[⟨id, "ok", none, none⟩], false⟩
    else if action = "notify" then ⟨[⟨id, "ok", none, none⟩], false⟩
    else
      let resp := (handleFirstMatch handlers).1
      ⟨[⟨id, resp.status, resp.text, resp.message⟩], false⟩

end ExtensionClient

namespace MessageHistory

theorem dropWhile_head_not {p : Char → Bool} {l : List Char} {a : Char} {t : List Char}
    (h : l.dropWhile p = a :: t) : p a = false := by
  induction l with
  | nil => simp at h
  | cons b r ih =>
    by_cases hb : p b
    · rw [List.dropWhile_cons_of_pos hb] at h
      exact ih h
    · rw [List.dropWhile_cons_of_neg hb] at h
      cases h
      simpa using hb

theorem trimChars_eq_rdropWhile (l : List Char) :
    trimChars l = List.rdropWhile isJsSpace (l.dropWhile isJsSpace) := rfl

theorem dropWhile_trimChars (l : List Char) :
    (trimChars l).dropWhile isJsSpace = trimChars l := by
  rcases h : trimChars l with _ | ⟨a, t⟩
  · rfl
  · have hpre : trimChars l <+: l.dropWhile isJsSpace := by
      rw [trimChars_eq_rdropWhile]
      exact List.rdropWhile_prefix _ _
    rw [h] at hpre
    obtain ⟨t2, ht2⟩ := hpre
    have ha : isJsSpace a = false :=
      dropWhile_head_not (l := l) (show l.dropWhile isJsSpace = a :: (t ++ t2) by
        rw [← ht2]; rfl)
    rw [List.dropWhile_cons_of_neg (by simp [ha])]

theorem trimChars_idem (l : List Char) : trimChars (trimChars l) = trimChars l := by
  conv_lhs => rw [trimChars_eq_rdropWhile, dropWhile_trimChars]
  rw [trimChars_eq_rdropWhile, List.rdropWhile_idempotent]

theorem trimChars_subset {a : Char} {l : List Char} (h : a ∈ trimChars l) : a ∈ l := by
  rw [trimChars_eq_rdropWhile] at h
  have hpre := List.rdropWhile_prefix isJsSpace (l.dropWhile isJsSpace)
  exact (List.dropWhile_suffix isJsSpace).subset (hpre.subset h)

theorem normCRLF_no_cr (l : List Char) : '\r' ∉ normCRLF l := by
  induction l using normCRLF.induct with
  | case1 => simp [normCRLF]
  | case2 => simp [normCRLF]
  | case3 c hc => simp [normCRLF, hc]; exact fun hh => hc hh.symm
  | case4 rest ih => simp [normCRLF, ih]
  | case5 c2 rest h2 ih => simp [normCRLF, h2, ih]
  | case6 c1 c2 rest h1 ih =>
    simp [normCRLF, h1, ih]
    exact fun hh => h1 hh.symm

theorem normCRLF_fixed {l : List Char} (h : '\r' ∉ l) : normCRLF l = l := by
  induction l using normCRLF.induct with
  | case1 => rfl
  | case2 => simp at h
  | case3 c hc => simp [normCRLF, hc]
  | case4 rest ih => simp at h
  | case5 c2 rest h2 ih => simp at h
  | case6 c1 c2 rest h1 ih =>
    have h2 : '\r' ∉ c2 :: rest := by simp at h ⊢; tauto
    simp [normCRLF, h1, ih h2]

theorem cleanText_eq (text : List Char) :
    cleanText text =
      if (trimChars (normCRLF text)).isEmpty then none
      else some (trimChars (normCRLF text)) := by
  simp [cleanText, ignoreSystemPrompts]

theorem cleanText_fixed {x c : List Char} (h : cleanText x = some c) :
    cleanText c = some c := by
  rw [cleanText_eq] at h
  split at h
  · exact absurd h (by simp)
  · rename_i hne
    obtain rfl : trimChars (normCRLF x) = c := by simpa using h
    have hcr : '\r' ∉ trimChars (normCRLF x) := fun hm => normCRLF_no_cr x (trimChars_subset hm)
    rw [cleanText_eq, normCRLF_fixed hcr, trimChars_idem]
    simp at hne ⊢
    exact hne

theorem cleanText_fixed_props {c : List Char} (h : cleanText c = some c) :
    trimChars c = c ∧ c ≠ [] := by
  rw [cleanText_eq] at h
  split at h
  · exact absurd h (by simp)
  · rename_i hne
    have hc : trimChars (normCRLF c) = c := by simpa using h
    have hcr : '\r' ∉ c := by
      intro hm
      rw [← hc] at hm
      exact normCRLF_no_cr c (trimChars_subset hm)
    rw [normCRLF_fixed hcr] at hc hne
    refine ⟨hc, ?_⟩
    simp only [List.isEmpty_iff] at hne
    rw [← hc]
    exact hne

theorem normalize_key_of_clean {c : List Char} (h : cleanText c = some c) :
    normalize_key c = some (collapseWs c) := by
  simp [normalize_key, h]

theorem mem_collapseCUGo_clean {x : List Char} :
    ∀ {k : Option (List Char)} {l : List (List Char)},
      x ∈ collapseCUGo k l → cleanText x = some x := by
  intro k l
  induction k, l using collapseCUGo.induct with
  | case1 k => simp [collapseCUGo]
  | case2 k item rest hnone ih =>
    rw [collapseCUGo, hnone]
    exact ih
  | case3 item rest cleaned hsome ih =>
    rw [collapseCUGo, hsome]
    simp only [if_pos rfl]
    exact ih
  | case4 k item rest cleaned hsome hne ih =>
    rw [collapseCUGo, hsome]
    simp only [if_neg hne, List.mem_cons]
    rintro (rfl | hx)
    · exact cleanText_fixed hsome
    · exact ih hx

theorem collapseCUGo_chain' :
    ∀ (k : Option (List Char)) (l : List (List Char)),
      List.Chain' keyNe (collapseCUGo k l) ∧
        (∀ x, (collapseCUGo k l).head? = some x → normalize_key x ≠ k) := by
  intro k l
  induction k, l using collapseCUGo.induct with
  | case1 k => simp [collapseCUGo]
  | case2 k item rest hnone ih =>
    rw [collapseCUGo, hnone]
    exact ih
  | case3 item rest cleaned hsome ih =>
    rw [collapseCUGo, hsome]
    simp only [if_pos rfl]
    exact ih
  | case4 k item rest cleaned hsome hne ih =>
    rw [collapseCUGo, hsome]
    simp only [if_neg hne]
    have hkey : normalize_key cleaned = some (collapseWs cleaned) :=
      normalize_key_of_clean (cleanText_fixed hsome)
    constructor
    · rw [List.chain'_cons']
      refine ⟨?_, ih.1⟩
      intro y hy
      have hny := ih.2 y (Option.mem_def.mp hy)
      show normalize_key cleaned ≠ normalize_key y
      rw [hkey]
      exact fun he => hny he.symm
    · intro x hx
      simp only [List.head?_cons, Option.some.injEq] at hx
      subst hx
      rw [hkey]
      exact hne

theorem collapseCUGo_fixed :
    ∀ (l : List (List Char)) (k : Option (List Char)),
      List.Chain' keyNe l → (∀ x ∈ l, cleanText x = some x) →
      (∀ x, l.head? = some x → normalize_key x ≠ k) →
      collapseCUGo k l = l := by
  intro l
  induction l with
  | nil => intro k _ _ _; rfl
  | cons x t ih =>
    intro k hchain hclean hhead
    have hx : cleanText x = some x := hclean x (by simp)
    have hkey : normalize_key x = some (collapseWs x) := normalize_key_of_clean hx
    rw [collapseCUGo, hx]
    have hne : ¬(some (collapseWs x) = k) := by
      have := hhead x (by simp)
      rw [hkey] at this
      exact this
    simp only [if_neg hne]
    congr 1
    refine ih (some (collapseWs x)) (List.Chain'.tail hchain) (fun y hy => hclean y (by simp [hy])) ?_
    rcases t with _ | ⟨b, bt⟩
    · intro y hy; simp at hy
    · intro y hy
      simp only [List.head?_cons, Option.some.injEq] at hy
      have hr : normalize_key x ≠ normalize_key b := (List.chain'_cons.mp hchain).1
      rw [hy, hkey] at hr
      exact fun he => hr he.symm

theorem collapseCU_clean {x : List Char} {l : List (List Char)}
    (h : x ∈ collapse_consecutive_unique l) : cleanText x = some x :=
  mem_collapseCUGo_clean h

theorem collapseCU_chain' (l : List (List Char)) :
    List.Chain' keyNe (collapse_consecutive_unique l) :=
  (collapseCUGo_chain' none l).1

theorem collapseCU_idem (l : List (List Char)) :
    collapse_consecutive_unique (collapse_consecutive_unique l) =
      collapse_consecutive_unique l := by
  refine collapseCUGo_fixed _ none (collapseCU_chain' l)
    (fun x hx => collapseCU_clean hx) ?_
  intro x hx
  have hclean : cleanText x = some x :=
    collapseCU_clean (l := l) (List.mem_of_mem_head? hx)
  rw [normalize_key_of_clean hclean]
  simp

theorem collapseCUGo_append :
    ∀ (u : List (List Char)) (k : Option (List Char)) (v : List (List Char)),
      collapseCUGo k (u ++ v) = collapseCUGo k u ++ collapseCUGo (goKey k u) v := by
  intro u
  induction u with
  | nil => intro k v; simp [collapseCUGo, goKey]
  | cons item rest ih =>
    intro k v
    rcases hclean : cleanText item with _ | cleaned
    · rw [List.cons_append, collapseCUGo, hclean, collapseCUGo, hclean, goKey, hclean]
      exact ih k v
    · by_cases hne : some (collapseWs cleaned) = k
      · rw [List.cons_append, collapseCUGo, hclean, collapseCUGo, hclean, goKey, hclean]
        simp only [if_pos hne]
        exact ih k v
      · rw [List.cons_append, collapseCUGo, hclean, collapseCUGo, hclean, goKey, hclean]
        simp only [if_neg hne, List.cons_append]
        rw [ih (some (collapseWs cleaned)) v]

theorem collapseCUGo_getLast :
    ∀ (l : List (List Char)) (k : Option (List Char)),
      (collapseCUGo k l = [] ∧ goKey k l = k) ∨
        (∃ x, (collapseCUGo k l).getLast? = some x ∧ normalize_key x = goKey k l) := by
  intro l
  induction l with
  | nil => intro k; exact Or.inl ⟨rfl, rfl⟩
  | cons item rest ih =>
    intro k
    rcases hclean : cleanText item with _ | cleaned
    · rw [collapseCUGo, hclean, goKey, hclean]
      exact ih k
    · by_cases hne : some (collapseWs cleaned) = k
      · rw [collapseCUGo, hclean, goKey, hclean]
        simp only [if_pos hne]
        exact ih k
      · rw [collapseCUGo, hclean, goKey, hclean]
        simp only [if_neg hne]
        rcases ih (some (collapseWs cleaned)) with ⟨htail, hgo⟩ | ⟨x, hx, hnorm⟩
        · refine Or.inr ⟨cleaned, ?_, ?_⟩
          · rw [htail]; rfl
          · rw [hgo]
            exact normalize_key_of_clean (cleanText_fixed hclean)
        · refine Or.inr ⟨x, ?_, hnorm⟩
          rcases htail : collapseCUGo (some (collapseWs cleaned)) rest with _ | ⟨b, bt⟩
          · rw [htail] at hx; simp at hx
          · rw [htail] at hx
            rw [List.getLast?_cons_cons]
            exact hx

theorem collapseCUGo_length_good {l : List (List Char)} {k : Option (List Char)}
    (hchain : List.Chain' keyNe l) (hclean : ∀ x ∈ l, cleanText x = some x) :
    l.length ≤ (collapseCUGo k l).length + 1 := by
  rcases l with _ | ⟨x, t⟩
  · simp
  · have hx : cleanText x = some x := hclean x (by simp)
    have hfix : ∀ k', (∀ y, t.head? = some y → normalize_key y ≠ k') → collapseCUGo k' t = t := by
      intro k' hh
      exact collapseCUGo_fixed t k' (List.Chain'.tail hchain)
        (fun y hy => hclean y (by simp [hy])) hh
    have hheadt : ∀ y, t.head? = some y → normalize_key y ≠ some (collapseWs x) := by
      rcases t with _ | ⟨b, bt⟩
      · intro y hy; simp at hy
      · intro y hy
        simp only [List.head?_cons, Option.some.injEq] at hy
        have hr : normalize_key x ≠ normalize_key b := (List.chain'_cons.mp hchain).1
        rw [hy, normalize_key_of_clean hx] at hr
        exact fun he => hr he.symm
    rw [collapseCUGo, hx]
    by_cases hne : some (collapseWs x) = k
    · simp only [if_pos hne]
      rw [hfix k (by rw [← hne]; exact hheadt)]
      simp
    · simp only [if_neg hne]
      rw [hfix (some (collapseWs x)) hheadt]
      simp

theorem readEntriesFilter_clean {x : List Char} (h : cleanText x = some x) :
    readEntriesFilter x = some x := by
  obtain ⟨htrim, hne⟩ := cleanText_fixed_props h
  rw [readEntriesFilter, htrim]
  simp only [List.isEmpty_iff, if_neg hne]
  exact h

theorem filterMap_readEntriesFilter {l : List (List Char)}
    (h : ∀ x ∈ l, cleanText x = some x) :
    l.filterMap readEntriesFilter = l := by
  induction l with
  | nil => rfl
  | cons x t ih =>
    rw [List.filterMap_cons, readEntriesFilter_clean (h x (by simp))]
    rw [ih (fun y hy => h y (by simp [hy]))]

theorem readEntries_collapseCU (l : List (List Char)) :
    readEntries (collapse_consecutive_unique l) = collapse_consecutive_unique l := by
  rw [readEntries, filterMap_readEntriesFilter (fun x hx => collapseCU_clean hx)]
  exact collapseCU_idem l

theorem readEntries_chain' (f : List (List Char)) :
    List.Chain' keyNe (readEntries f) :=
  collapseCU_chain' _

theorem readEntries_clean {x : List Char} {f : List (List Char)}
    (h : x ∈ readEntries f) : cleanText x = some x :=
  collapseCU_clean h

theorem collapseCU_ne_nil {l : List (List Char)}
    (hclean : ∀ x ∈ l, cleanText x = some x) (hne : l ≠ []) :
    collapse_consecutive_unique l ≠ [] := by
  rcases l with _ | ⟨x, t⟩
  · exact absurd rfl hne
  · have hx : cleanText x = some x := hclean x (by simp)
    rw [collapse_consecutive_unique, collapseCUGo, hx]
    simp

theorem eventMessages_clean {x : List Char} {lines : List RLine}
    (h : x ∈ eventMessages lines) : cleanText x = some x := by
  rw [eventMessages, List.mem_filterMap] at h
  obtain ⟨l, _, hl⟩ := h
  rcases l with ⟨m, c⟩ | c | _
  · obtain ⟨y, -, hy⟩ := Option.bind_eq_some.mp hl
    exact cleanText_fixed hy
  · simp at hl
  · simp at hl

theorem responseMessages_clean {x : List Char} {lines : List RLine}
    (h : x ∈ responseMessages lines) : cleanText x = some x := by
  rw [responseMessages, List.mem_filterMap] at h
  obtain ⟨l, _, hl⟩ := h
  rcases l with ⟨m, c⟩ | c | _
  · simp at hl
  · obtain ⟨y, -, hy⟩ := Option.bind_eq_some.mp hl
    exact cleanText_fixed hy
  · simp at hl

/-- Whatever `readRolloutUserMessages` returns is the collapse of a list
of cleaned texts. -/
theorem readRolloutUserMessages_eq (lines : List RLine) :
    ∃ m, readRolloutUserMessages lines = collapse_consecutive_unique m ∧
      ∀ x ∈ m, cleanText x = some x := by
  rw [readRolloutUserMessages]
  split
  · exact ⟨eventMessages lines, rfl, fun x hx => eventMessages_clean hx⟩
  · exact ⟨responseMessages lines, rfl, fun x hx => responseMessages_clean hx⟩

theorem readEntries_idem (f : List (List Char)) :
    readEntries (readEntries f) = readEntries f :=
  readEntries_collapseCU (f.filterMap readEntriesFilter)

theorem readEntries_readRollout (lines : List RLine) :
    readEntries (readRolloutUserMessages lines) = readRolloutUserMessages lines := by
  obtain ⟨m, hm, -⟩ := readRolloutUserMessages_eq lines
  rw [hm, readEntries_collapseCU]

theorem readEntries_good_fixed {l : List (List Char)}
    (hchain : List.Chain' keyNe l) (hclean : ∀ x ∈ l, cleanText x = some x) :
    readEntries l = l := by
  rw [readEntries, filterMap_readEntriesFilter hclean]
  refine collapseCUGo_fixed l none hchain hclean ?_
  intro x hx
  rw [normalize_key_of_clean (hclean x (List.mem_of_mem_head? hx))]
  simp

theorem clampCursor_bound {c n : Int} (hn : 0 ≤ n) :
    0 ≤ clampCursor c n ∧ clampCursor c n ≤ n := by
  rw [clampCursor]
  split
  · omega
  · split <;> omega

theorem reconstructWithCursor_entries (ro : Option (List RLine)) (s : HState) :
    (reconstructWithCursor ro s).2 = readEntries (reconstructWithCursor ro s).1.file := by
  rcases ro with _ | lines
  · rfl
  · unfold reconstructWithCursor
    simp only
    split
    · simp only
      rw [readEntries_readRollout]
    · rfl

theorem reconstructWithCursor_cursorOk (ro : Option (List RLine)) {s : HState}
    (h : cursorOk s) : cursorOk (reconstructWithCursor ro s).1 := by
  rcases ro with _ | lines
  · exact h
  · unfold reconstructWithCursor
    simp only
    split
    · simp only [cursorOk, sessionLog]
      rw [readEntries_readRollout]
      simp
    · exact h

theorem reconstructNoCursor_entries (ro : Option (List RLine)) (s : HState) :
    (reconstructNoCursor ro s).2 = readEntries (reconstructNoCursor ro s).1.file := by
  rcases ro with _ | lines
  · rfl
  · unfold reconstructNoCursor
    simp only
    split
    · simp only
      rw [readEntries_readRollout]
    · rfl

theorem reconstructNoCursor_cursorOk (ro : Option (List RLine)) {s : HState}
    (h : cursorOk s) : cursorOk (reconstructNoCursor ro s).1 := by
  rcases ro with _ | lines
  · exact h
  · unfold reconstructNoCursor
    simp only
    split
    · rename_i hempty
      simp only [cursorOk, sessionLog] at h ⊢
      rcases hc : s.cursorFile with _ | c
      · trivial
      · rw [hc] at h
        rw [List.isEmpty_iff] at hempty
        rw [hempty] at h
        simp only [List.length_nil, Nat.cast_zero] at h
        rw [readEntries_readRollout]
        refine ⟨h.1, ?_⟩
        omega
    · exact h

theorem cursorOk_handleSeed (t : Option (List RLine)) (i : List (List Char))
    (s : HState) : cursorOk (handleSeed t i s).1 := by
  simp only [handleSeed, cursorOk, sessionLog, dedup_entries]
  rw [readEntries_collapseCU]
  simp

theorem cursorOk_handlePush {s : HState} (raw : List Char) (h : cursorOk s) :
    cursorOk (handlePush raw s).1 := by
  simp only [handlePush]
  split
  · exact h
  · simp only [cursorOk, sessionLog]
    simp

theorem cursorOk_handlePrev {s : HState} (ro : Option (List RLine)) (h : cursorOk s) :
    cursorOk (handlePrev ro s).1 := by
  simp only [handlePrev]
  have hent := reconstructWithCursor_entries ro s
  have hok := reconstructWithCursor_cursorOk ro h
  split
  · exact hok
  · rename_i hne
    simp only [cursorOk, sessionLog]
    rw [← hent]
    have hpos : 0 < (reconstructWithCursor ro s).2.length := by
      rcases hE : (reconstructWithCursor ro s).2 with _ | _
      · rw [hE] at hne; simp at hne
      · simp
    have hcb := clampCursor_bound
      (c := readCursor (reconstructWithCursor ro s).1.cursorFile
        ((reconstructWithCursor ro s).2.length : Int))
      (n := ((reconstructWithCursor ro s).2.length : Int)) (by positivity)
    constructor
    · split <;> omega
    · split <;> omega

theorem cursorOk_handleNext {s : HState} (ro : Option (List RLine)) (h : cursorOk s) :
    cursorOk (handleNext ro s).1 := by
  simp only [handleNext]
  have hent := reconstructWithCursor_entries ro s
  have hok := reconstructWithCursor_cursorOk ro h
  split
  · exact hok
  · rename_i hne
    have hcb := clampCursor_bound
      (c := readCursor (reconstructWithCursor ro s).1.cursorFile
        ((reconstructWithCursor ro s).2.length : Int))
      (n := ((reconstructWithCursor ro s).2.length : Int)) (by positivity)
    split
    · simp only [cursorOk, sessionLog]
      rw [← hent]
      omega
    · rename_i hlt
      push_neg at hlt
      simp only [cursorOk, sessionLog]
      rw [← hent]
      omega

theorem cursorOk_handleFirst {s : HState} (ro : Option (List RLine)) (h : cursorOk s) :
    cursorOk (handleFirst ro s).1 := by
  simp only [handleFirst]
  have hok := reconstructNoCursor_cursorOk ro h
  split
  · exact hok
  · simp only [cursorOk, sessionLog]
    simp

theorem cursorOk_handleLast {s : HState} (ro : Option (List RLine)) (h : cursorOk s) :
    cursorOk (handleLast ro s).1 := by
  simp only [handleLast]
  have hent := reconstructNoCursor_entries ro s
  have hok := reconstructNoCursor_cursorOk ro h
  split
  · exact hok
  · simp only [cursorOk, sessionLog]
    rw [← hent]
    constructor
    · positivity
    · exact_mod_cast Nat.sub_le _ _

/-- Removing one element from a deduplicated log loses at most one more
entry when the log is read back (the two neighbours of the removed entry
may now collapse). -/
theorem readEntries_append_good {u v : List (List Char)}
    (hcu : List.Chain' keyNe u) (hclu : ∀ x ∈ u, cleanText x = some x)
    (hcv : List.Chain' keyNe v) (hclv : ∀ x ∈ v, cleanText x = some x) :
    u.length + v.length ≤ (readEntries (u ++ v)).length + 1 := by
  have hclean : ∀ x ∈ u ++ v, cleanText x = some x := by
    intro x hx
    rcases List.mem_append.mp hx with hx | hx
    · exact hclu x hx
    · exact hclv x hx
  rw [readEntries, filterMap_readEntriesFilter hclean]
  rw [collapse_consecutive_unique, collapseCUGo_append]
  have hu : collapseCUGo none u = u := by
    refine collapseCUGo_fixed u none hcu hclu ?_
    intro x hx
    rw [normalize_key_of_clean (hclu x (List.mem_of_mem_head? hx))]
    simp
  rw [hu, List.length_append]
  have hv := collapseCUGo_length_good (k := goKey none u) hcv hclv
  omega

theorem cursorOk_handleDelete {s : HState} (ro : Option (List RLine))
    (reqIndex : Option Int) (rawText : List Char) (h : cursorOk s) :
    cursorOk (handleDelete ro reqIndex rawText s).1 := by
  simp only [handleDelete]
  have hent := reconstructWithCursor_entries ro s
  have hok := reconstructWithCursor_cursorOk ro h
  split
  · exact hok
  · rename_i hne
    split
    · exact hok
    · rename_i hguard
      push_neg at hguard
      obtain ⟨hg0, hg1⟩ := hguard
      set entries := (reconstructWithCursor ro s).2 with hE
      set D := resolveDeleteIdx reqIndex rawText entries with hD
      have hchain : List.Chain' keyNe entries := by rw [hent]; exact readEntries_chain' _
      have hclean : ∀ x ∈ entries, cleanText x = some x := by
        intro x hx
        rw [hent] at hx
        exact readEntries_clean hx
      simp only [cursorOk, sessionLog]
      have hdlt : D.toNat < entries.length := by omega
      have hlen2 : (entries.take D.toNat ++ entries.drop (D.toNat + 1)).length =
          entries.length - 1 := by
        simp [List.length_take, List.length_drop]
        omega
      have hcb := clampCursor_bound
        (c := readCursor (reconstructWithCursor ro s).1.cursorFile
          (((entries.take D.toNat ++ entries.drop (D.toNat + 1)).length : Nat) : Int))
        (n := (((entries.take D.toNat ++ entries.drop (D.toNat + 1)).length : Nat) : Int))
        (by positivity)
      by_cases hlast : D.toNat + 1 = entries.length
      · have hdrop : entries.drop (D.toNat + 1) = [] := by
          rw [hlast, List.drop_length]
        have hfix : readEntries (entries.take D.toNat ++ entries.drop (D.toNat + 1)) =
            entries.take D.toNat := by
          rw [hdrop, List.append_nil]
          exact readEntries_good_fixed (hchain.take _)
            (fun x hx => hclean x (List.take_subset _ _ hx))
        rw [hfix]
        rw [hdrop, List.append_nil] at hcb ⊢
        have hlt : (entries.take D.toNat).length = D.toNat := by
          simp [List.length_take]
          omega
        rw [hlt] at hcb ⊢
        constructor
        · (repeat' split) <;> omega
        · (repeat' split) <;> omega
      · have hlow := readEntries_append_good (hchain.take D.toNat)
          (fun x hx => hclean x (List.take_subset _ _ hx))
          (hchain.drop (D.toNat + 1))
          (fun x hx => hclean x (List.drop_subset _ _ hx))
        rw [← List.length_append] at hlow
        have hlt : (D.toNat : Int) ≤
            ((entries.take D.toNat ++ entries.drop (D.toNat + 1)).length : Int) - 1 := by
          rw [hlen2]
          omega
        constructor
        · (repeat' split) <;> omega
        · (repeat' split) <;> omega

/-- One dispatch step preserves the cursor invariant. -/
theorem cursorOk_dispatch {s : HState} (a : HAction) (h : cursorOk s) :
    cursorOk (dispatch a s).1 := by
  rcases a with ⟨t, i⟩ | raw | ro | ro | ro | ro | ⟨ro, i, raw⟩ | _
  · exact cursorOk_handleSeed t i s
  · exact cursorOk_handlePush raw h
  · exact cursorOk_handlePrev ro h
  · exact cursorOk_handleNext ro h
  · exact cursorOk_handleFirst ro h
  · exact cursorOk_handleLast ro h
  · exact cursorOk_handleDelete ro i raw h
  · exact h

theorem cursorOk_runActions (acts : List HAction) {s : HState} (h : cursorOk s) :
    cursorOk (runActions acts s) := by
  induction acts generalizing s with
  | nil => exact h
  | cons a t ih => exact ih (cursorOk_dispatch a h)

theorem reconstructWithCursor_of_ne {ro : Option (List RLine)} {s : HState}
    (h : ¬(readEntries s.file).isEmpty = true) :
    reconstructWithCursor ro s = (s, readEntries s.file) := by
  rcases ro with _ | lines
  · rfl
  · unfold reconstructWithCursor
    simp only
    rw [if_neg h]

theorem readCursor_some (c d : Int) : readCursor (some c) d = max 0 c := rfl

theorem clampCursor_of_mem {c len : Int} (h0 : 0 ≤ c) (h1 : c ≤ len) :
    clampCursor c len = c := by
  rw [clampCursor, if_neg (by omega), if_neg (by omega)]

theorem collapseCUGo_singleton (k : Option (List Char)) {c : List Char}
    (hc : cleanText c = some c) :
    collapseCUGo k [c] = if some (collapseWs c) = k then [] else [c] := by
  simp only [collapseCUGo, hc]

theorem readEntries_append_last {f : List (List Char)} {c : List Char}
    (hc : cleanText c = some c) :
    ∃ x, (readEntries (f ++ [c])).getLast? = some x ∧
      normalize_key x = normalize_key c := by
  rw [readEntries]
  have hfm : (f ++ [c]).filterMap readEntriesFilter =
      f.filterMap readEntriesFilter ++ [c] := by
    rw [List.filterMap_append]
    simp [readEntriesFilter_clean hc]
  rw [hfm, collapse_consecutive_unique, collapseCUGo_append,
    collapseCUGo_singleton _ hc]
  by_cases hcase : some (collapseWs c) = goKey none (f.filterMap readEntriesFilter)
  · rcases collapseCUGo_getLast (f.filterMap readEntriesFilter) none with
      ⟨hnil, hgo⟩ | ⟨x, hx, hnorm⟩
    · rw [hgo] at hcase
      exact absurd hcase (by simp)
    · refine ⟨x, ?_, ?_⟩
      · rw [if_pos hcase, List.append_nil]
        exact hx
      · rw [hnorm, ← hcase, normalize_key_of_clean hc]
  · rw [if_neg hcase]
    exact ⟨c, List.getLast?_concat _, rfl⟩

theorem appendEntry_no_op {f : List (List Char)} {c : List Char}
    (hc : cleanText c = some c)
    (hlast : ∃ x, (readEntries f).getLast? = some x ∧
      normalize_key x = normalize_key c) :
    appendEntry f c = f := by
  obtain ⟨x, hx, hn⟩ := hlast
  simp only [appendEntry, hc, hx, hn, if_pos]

theorem appendEntry_last {f : List (List Char)} {c : List Char}
    (hc : cleanText c = some c) :
    ∃ x, (readEntries (appendEntry f c)).getLast? = some x ∧
      normalize_key x = normalize_key c := by
  simp only [appendEntry, hc]
  rcases hL : (readEntries f).getLast? with _ | last
  · exact readEntries_append_last hc
  · simp only
    by_cases hk : normalize_key last = normalize_key c
    · rw [if_pos hk]
      exact ⟨last, hL, hk⟩
    · rw [if_neg hk]
      exact readEntries_append_last hc

theorem resolveDeleteIdx_of_valid {i : Nat} {entries : List (List Char)}
    (raw : List Char) (hi : i < entries.length) :
    resolveDeleteIdx (some (i : Int)) raw entries = (i : Int) := by
  simp only [resolveDeleteIdx]
  have h1 : (if (i : Int) ≥ 0 then some (i : Int) else none) = some (i : Int) :=
    if_pos (by omega)
  rw [h1]
  simp only
  have h2 : (if (i : Int) < (entries.length : Int) then (i : Int) else (-1 : Int)) =
      (i : Int) := if_pos (by exact_mod_cast hi)
  rw [h2]
  rw [if_neg (by omega)]

end MessageHistory

namespace ExtensionClient

theorem handleFirstMatch_skips {pre : List HOutcome}
    (h : ∀ x ∈ pre, isSkipOutcome x = true) (v : List HOutcome) :
    handleFirstMatch (pre ++ v) =
      ((handleFirstMatch v).1, (handleFirstMatch v).2 + pre.length) := by
  induction pre with
  | nil => simp [handleFirstMatch]
  | cons x t ih =>
    have hx : isSkipOutcome x = true := h x (by simp)
    have ht : ∀ y ∈ t, isSkipOutcome y = true := fun y hy => h y (by simp [hy])
    rcases x with ⟨_ | r⟩ | m
    · rw [List.cons_append, handleFirstMatch, ih ht]
      simp only [List.length_cons, Prod.mk.injEq]
      exact ⟨trivial, by omega⟩
    · have hst : r.status = "skip" := by
        simpa [isSkipOutcome] using hx
      rw [List.cons_append, handleFirstMatch, if_pos hst, ih ht]
      simp only [List.length_cons, Prod.mk.injEq]
      exact ⟨trivial, by omega⟩
    · simp [isSkipOutcome] at hx

theorem lookupKey_setKey {α : Type} (m : List (List Char × α))
    (k : List Char) (v : α) (q : List Char) :
    lookupKey q (setKey m k v) = if q = k then some v else lookupKey q m := by
  induction m with
  | nil =>
    simp only [setKey, lookupKey]
    by_cases hq : q = k
    · rw [if_pos hq.symm, if_pos hq]
    · rw [if_neg (fun hh => hq hh.symm), if_neg hq]
  | cons p rest ih =>
    by_cases hp : p.1 = k
    · simp only [setKey, if_pos hp, lookupKey]
      by_cases hq : q = k
      · rw [if_pos hq.symm, if_pos hq]
      · rw [if_neg (fun hh => hq hh.symm), if_neg hq, if_neg (by rw [hp]; exact fun hh => hq hh.symm)]
    · simp only [setKey, if_neg hp, lookupKey]
      by_cases hpq : p.1 = q
      · rw [if_pos hpq, if_neg (fun hh => hp (hpq.trans hh)), if_pos hpq]
      · rw [if_neg hpq, ih, if_neg hpq]

theorem lookupKey_mergeEntries {α : Type} (es : List (List Char × Option α))
    (m : List (List Char × α)) (k : List Char) :
    lookupKey k (mergeEntries m es) =
      (match lastDefined k es with
       | some v => some v
       | none => lookupKey k m) := by
  induction es generalizing m with
  | nil => rfl
  | cons e rest ih =>
    rcases he : e.2 with _ | v
    · simp only [mergeEntries, he, lastDefined]
      rw [ih]
      rcases hld : lastDefined k rest with _ | w
      · by_cases hek : e.1 = k <;> simp [hld, he, hek]
      · simp [hld]
    · simp only [mergeEntries, he, lastDefined]
      rw [ih]
      rcases hld : lastDefined k rest with _ | w
      · rw [lookupKey_setKey]
        by_cases hek : e.1 = k
        · simp [hld, he, hek]
        · simp only [hld, he, if_neg hek]
          rw [if_neg (fun hh => hek hh.symm)]
      · simp [hld]

theorem mergePayloadsGo_append {α : Type} (u : List (ConfigPayload α))
    (m : List (List Char × α)) (v : List (ConfigPayload α)) :
    mergePayloadsGo m (u ++ v) = mergePayloadsGo (mergePayloadsGo m u) v := by
  induction u generalizing m with
  | nil => rfl
  | cons p rest ih =>
    rcases p with es | _
    · simp only [List.cons_append, mergePayloadsGo]
      exact ih _
    · simp only [List.cons_append, mergePayloadsGo]
      exact ih _

theorem mergeEntries_filter {α : Type} (es : List (List Char × Option α))
    (m : List (List Char × α)) :
    mergeEntries m (es.filter fun e => e.2.isSome) = mergeEntries m es := by
  induction es generalizing m with
  | nil => rfl
  | cons e rest ih =>
    rcases he : e.2 with _ | v
    · rw [List.filter_cons]
      simp only [he, Option.isSome_none, Bool.false_eq_true, if_false, mergeEntries]
      exact ih m
    · rw [List.filter_cons]
      simp only [he, Option.isSome_some, if_true, mergeEntries]
      exact ih _

theorem mergePayloadsGo_strip {α : Type} (ps : List (ConfigPayload α))
    (m : List (List Char × α)) :
    mergePayloadsGo m (ps.map stripUndefined) = mergePayloadsGo m ps := by
  induction ps generalizing m with
  | nil => rfl
  | cons p rest ih =>
    rcases p with es | _
    · simp only [List.map_cons, stripUndefined, mergePayloadsGo, mergeEntries_filter]
      exact ih _
    · simp only [List.map_cons, stripUndefined, mergePayloadsGo]
      exact ih m

end ExtensionClient

/-! ### The verified claims -/

namespace MessageHistory

/-- Claim C4: for every finite sequence of History Store actions on a
session, starting from a fresh session, the persisted cursor satisfies
`0 ≤ cursor ≤ length` of that session's Log after every action (the
state after the k-th action is `runActions` of the first k actions). -/
theorem cursor_bound_invariant (acts : List HAction) :
    cursorOk (runActions acts initState) :=
  cursorOk_runActions acts trivial

/-- Claim C3: after any finite sequence of seed, push and delete actions
on a session, no two adjacent entries of the session's Log are equal
under the normalized comparison key. -/
theorem log_dedup_invariant (acts : List HAction)
    (h : acts.all isSeedPushDelete = true) :
    List.Chain' keyNe (sessionLog (runActions acts initState)) :=
  readEntries_chain' _

theorem log_dedup_invariant_witness :
    ([HAction.seed none [['a'], ['a'], ['b']], HAction.push ['b'],
        HAction.delete none (some 0) []].all isSeedPushDelete = true) ∧
      List.Chain' keyNe (sessionLog (runActions
        [HAction.seed none [['a'], ['a'], ['b']], HAction.push ['b'],
          HAction.delete none (some 0) []] initState)) :=
  ⟨by decide, log_dedup_invariant _ (by decide)⟩

/-- Claim C5: push is idempotent under the normalized key — a push whose
text cleans to nothing answers `skip` and changes nothing, and after a
successful push, pushing the same text again leaves the whole session
state unchanged (in particular the Log length does not grow); the cursor
is reset to the Log length by each push. -/
theorem push_idempotent (s : HState) (raw : List Char) :
    (cleanText raw = none → handlePush raw s = (s, skipResp)) ∧
    (∀ c, cleanText raw = some c →
      (handlePush raw (handlePush raw s).1).1 = (handlePush raw s).1 ∧
      (sessionLog (handlePush raw (handlePush raw s).1).1).length =
        (sessionLog (handlePush raw s).1).length ∧
      (handlePush raw s).1.cursorFile =
        some ((sessionLog (handlePush raw s).1).length : Int) ∧
      (handlePush raw (handlePush raw s).1).1.cursorFile =
        some ((sessionLog (handlePush raw (handlePush raw s).1).1).length : Int)) := by
  constructor
  · intro hc
    simp [handlePush, hc]
  · intro c hc
    have hcl : cleanText c = some c := cleanText_fixed hc
    have hcne : c ≠ [] := (cleanText_fixed_props hcl).2
    have hstep : ∀ s' : HState, handlePush raw s' =
        (⟨appendEntry s'.file c, some ((readEntries (appendEntry s'.file c)).length : Int)⟩,
          ⟨"ok", none, none⟩) := by
      intro s'
      simp only [handlePush, hc, Option.getD_some]
      rw [if_neg (by simpa [List.isEmpty_iff] using hcne)]
    have hfix : appendEntry (appendEntry s.file c) c = appendEntry s.file c :=
      appendEntry_no_op hcl (appendEntry_last hcl)
    refine ⟨?_, ?_, ?_, ?_⟩
    · rw [hstep s, hstep ⟨appendEntry s.file c, _⟩]
      simp only [hfix]
    · rw [hstep s, hstep ⟨appendEntry s.file c, _⟩]
      simp only [sessionLog, hfix]
    · rw [hstep s]
      simp only [sessionLog]
    · rw [hstep s, hstep ⟨appendEntry s.file c, _⟩]
      simp only [sessionLog, hfix]

theorem push_idempotent_witness :
    cleanText ['a'] = some ['a'] ∧
    (handlePush ['a'] (handlePush ['a'] initState).1).1 = (handlePush ['a'] initState).1 :=
  ⟨by decide, ((push_idempotent initState ['a']).2 ['a'] (by decide)).1⟩

/-- Claim C8: from the browsing-exited state (`cursor = length`) of a
session with a non-empty Log, one `prev` followed by one `next` returns
the cursor to `length`, the `next` answering `ok` with empty text. -/
theorem prev_next_symmetry (ro1 ro2 : Option (List RLine)) (s : HState)
    (hne : sessionLog s ≠ [])
    (hcur : s.cursorFile = some ((sessionLog s).length : Int)) :
    (handleNext ro2 (handlePrev ro1 s).1).1.cursorFile = some ((sessionLog s).length : Int) ∧
    (handleNext ro2 (handlePrev ro1 s).1).2.status = "ok" ∧
    (handleNext ro2 (handlePrev ro1 s).1).2.text = some [] := by
  simp only [sessionLog] at hne hcur ⊢
  have hne2 : ¬(readEntries s.file).isEmpty = true := by
    simpa [List.isEmpty_iff] using hne
  have hL : 1 ≤ (readEntries s.file).length := by
    rcases hE : readEntries s.file with _ | _
    · exact absurd hE hne
    · simp
  set L : Int := ((readEntries s.file).length : Int) with hLdef
  have hL0 : 1 ≤ L := by omega
  have hprev : (handlePrev ro1 s).1 = ⟨s.file, some (L - 1)⟩ := by
    simp only [handlePrev, reconstructWithCursor_of_ne hne2]
    rw [if_neg hne2]
    simp only [hcur, readCursor_some]
    rw [max_eq_right (by omega)]
    rw [clampCursor_of_mem (by omega) (by omega)]
    rw [if_neg (by omega)]
  rw [hprev]
  have hne3 : ¬(readEntries (⟨s.file, some (L - 1)⟩ : HState).file).isEmpty = true := hne2
  simp only [handleNext, reconstructWithCursor_of_ne hne3]
  rw [if_neg hne2]
  simp only [readCursor_some]
  rw [max_eq_right (by omega)]
  rw [clampCursor_of_mem (by omega) (by omega)]
  rw [if_pos (by omega)]
  exact ⟨rfl, rfl, rfl⟩

theorem prev_next_symmetry_witness :
    sessionLog (⟨[['a']], some 1⟩ : HState) ≠ [] ∧
    (handleNext none (handlePrev none ⟨[['a']], some 1⟩).1).1.cursorFile =
      some ((sessionLog (⟨[['a']], some 1⟩ : HState)).length : Int) :=
  ⟨by decide, (prev_next_symmetry none none ⟨[['a']], some 1⟩ (by decide) (by decide)).1⟩

/-- Claim C1 (counterexample): from Log `["a","b","c"]` with cursor `3`,
deleting index `1` persists cursor `1`, not `2`: `handleDelete` clamps
the stored cursor into the new length (2) first and then decrements it,
rather than decrementing first and clamping afterwards. -/
theorem delete_clamp_order_counterexample :
    (handleDelete none (some 1) [] ⟨[['a'], ['b'], ['c']], some 3⟩).1.cursorFile = some 1 ∧
    (handleDelete none (some 1) [] ⟨[['a'], ['b'], ['c']], some 3⟩).1.cursorFile ≠ some 2 := by
  decide

/-- Claim C1 (amended): deleting a valid explicit index removes that
entry and rewrites the Log; the response is `ok` and reports the entry
now occupying the deleted index; the cursor is first clamped into the new
length and then decremented when it was positioned after the removed
index.  In particular Log `["a","b","c"]` with cursor `3`, deleting index
`1`, yields Log `["a","c"]`, cursor `1`, and entry text `"c"`. -/
theorem delete_reindex (ro : Option (List RLine)) (s : HState) (i : Nat)
    (hi : i < (sessionLog s).length) :
    ((handleDelete ro (some (i : Int)) [] s).1.file =
      (sessionLog s).take i ++ (sessionLog s).drop (i + 1)) ∧
    ((handleDelete ro (some (i : Int)) [] s).2.status = "ok") ∧
    ((handleDelete ro (some (i : Int)) [] s).2.next_text =
      some ((((sessionLog s).take i ++ (sessionLog s).drop (i + 1)).get? i).getD [])) ∧
    ((handleDelete ro (some (i : Int)) [] s).1.cursorFile =
      some (if clampCursor (readCursor s.cursorFile
              ((((sessionLog s).take i ++ (sessionLog s).drop (i + 1)).length : Nat) : Int))
              ((((sessionLog s).take i ++ (sessionLog s).drop (i + 1)).length : Nat) : Int) >
              (i : Int)
            then clampCursor (readCursor s.cursorFile
              ((((sessionLog s).take i ++ (sessionLog s).drop (i + 1)).length : Nat) : Int))
              ((((sessionLog s).take i ++ (sessionLog s).drop (i + 1)).length : Nat) : Int) - 1
            else clampCursor (readCursor s.cursorFile
              ((((sessionLog s).take i ++ (sessionLog s).drop (i + 1)).length : Nat) : Int))
              ((((sessionLog s).take i ++ (sessionLog s).drop (i + 1)).length : Nat) : Int))) ∧
    ((handleDelete none (some 1) [] ⟨[['a'], ['b'], ['c']], some 3⟩).1 =
      ⟨[['a'], ['c']], some 1⟩) ∧
    ((handleDelete none (some 1) [] ⟨[['a'], ['b'], ['c']], some 3⟩).2 =
      ⟨"ok", none, some ['c']⟩) := by
  simp only [sessionLog] at hi ⊢
  have hne2 : ¬(readEntries s.file).isEmpty = true := by
    rcases hE : readEntries s.file with _ | _
    · rw [hE] at hi; simp at hi
    · simp
  simp only [handleDelete, reconstructWithCursor_of_ne hne2]
  rw [if_neg hne2]
  simp only [resolveDeleteIdx_of_valid [] hi]
  rw [if_neg (by push_neg; refine ⟨by omega, by exact_mod_cast hi⟩)]
  simp only [Int.toNat_natCast]
  have hcb := clampCursor_bound
    (c := readCursor s.cursorFile
      ((((readEntries s.file).take i ++ (readEntries s.file).drop (i + 1)).length : Nat) : Int))
    (n := ((((readEntries s.file).take i ++ (readEntries s.file).drop (i + 1)).length : Nat) : Int))
    (by omega)
  refine ⟨trivial, trivial, trivial, ?_, by decide, by decide⟩
  congr 1
  split
  · omega
  · rw [if_neg (by omega)]

theorem delete_reindex_witness :
    1 < (sessionLog (⟨[['a'], ['b'], ['c']], some 3⟩ : HState)).length ∧
    (handleDelete none (some ((1 : Nat) : Int)) [] ⟨[['a'], ['b'], ['c']], some 3⟩).1.file =
      (sessionLog (⟨[['a'], ['b'], ['c']], some 3⟩ : HState)).take 1 ++
        (sessionLog (⟨[['a'], ['b'], ['c']], some 3⟩ : HState)).drop (1 + 1) :=
  ⟨by decide, (delete_reindex none ⟨[['a'], ['b'], ['c']], some 3⟩ 1 (by decide)).1⟩

/-- Claim C6: seeding from a transcript uses the event-shaped user
messages whenever at least one exists, and falls back to response-item
user messages only when none do (the two styles are never mixed); when
the transcript yields nothing, the request's `entries` list is used.  In
every case consecutive duplicates are collapsed, the result fully
overwrites the Log, the cursor is set to the new length, and the response
is `ok`.  In particular a transcript with two event user messages
`"hello"`, `"hello"` and one response-item user message `"ignored"` seeds
Log `["hello"]` with cursor `1`. -/
theorem seed_prefers_event_messages (lines : List RLine)
    (incoming : List (List Char)) (s : HState) :
    ((handleSeed (some lines) incoming s).2.status = "ok") ∧
    ((handleSeed (some lines) incoming s).1.cursorFile =
      some (((handleSeed (some lines) incoming s).1.file).length : Int)) ∧
    (eventMessages lines ≠ [] →
      (handleSeed (some lines) incoming s).1.file =
        collapse_consecutive_unique (eventMessages lines)) ∧
    (eventMessages lines = [] → responseMessages lines ≠ [] →
      (handleSeed (some lines) incoming s).1.file =
        collapse_consecutive_unique (responseMessages lines)) ∧
    (eventMessages lines = [] → responseMessages lines = [] →
      (handleSeed (some lines) incoming s).1.file =
        collapse_consecutive_unique incoming) ∧
    ((handleSeed (some [RLine.eventUser (some ['h', 'e', 'l', 'l', 'o']) none,
        RLine.eventUser (some ['h', 'e', 'l', 'l', 'o']) none,
        RLine.responseUser (some (UserContent.str ['i', 'g', 'n', 'o', 'r', 'e', 'd']))])
        [] initState).1 = ⟨[['h', 'e', 'l', 'l', 'o']], some 1⟩) := by
  refine ⟨rfl, rfl, ?_, ?_, ?_, by decide⟩
  · intro hev
    have hroll : readRolloutUserMessages lines =
        collapse_consecutive_unique (eventMessages lines) := by
      rw [readRolloutUserMessages, if_pos (by
        rcases hE : eventMessages lines with _ | _
        · exact absurd hE hev
        · simp)]
    have hne : collapse_consecutive_unique (eventMessages lines) ≠ [] :=
      collapseCU_ne_nil (fun x hx => eventMessages_clean hx) hev
    simp only [handleSeed, hroll, dedup_entries]
    rw [if_pos (by
      rcases hE : collapse_consecutive_unique (eventMessages lines) with _ | _
      · exact absurd hE hne
      · simp)]
    exact collapseCU_idem _
  · intro hev hrsp
    have hroll : readRolloutUserMessages lines =
        collapse_consecutive_unique (responseMessages lines) := by
      rw [readRolloutUserMessages, if_neg (by rw [hev]; simp)]
    have hne : collapse_consecutive_unique (responseMessages lines) ≠ [] :=
      collapseCU_ne_nil (fun x hx => responseMessages_clean hx) hrsp
    simp only [handleSeed, hroll, dedup_entries]
    rw [if_pos (by
      rcases hE : collapse_consecutive_unique (responseMessages lines) with _ | _
      · exact absurd hE hne
      · simp)]
    exact collapseCU_idem _
  · intro hev hrsp
    have hroll : readRolloutUserMessages lines = [] := by
      rw [readRolloutUserMessages, if_neg (by rw [hev]; simp), hrsp]
      rfl
    simp only [handleSeed, hroll, dedup_entries]
    rw [if_neg (by simp)]
    rcases hinc : incoming with _ | ⟨a, t⟩
    · rw [if_neg (by simp)]
    · rw [if_pos (by simp)]

theorem seed_prefers_event_messages_witness :
    eventMessages [RLine.eventUser (some ['h', 'i']) none,
      RLine.responseUser (some (UserContent.str ['n', 'o']))] ≠ [] ∧
    (handleSeed (some [RLine.eventUser (some ['h', 'i']) none,
        RLine.responseUser (some (UserContent.str ['n', 'o']))]) [] initState).1.file =
      collapse_consecutive_unique (eventMessages [RLine.eventUser (some ['h', 'i']) none,
        RLine.responseUser (some (UserContent.str ['n', 'o']))]) :=
  ⟨by decide, ((seed_prefers_event_messages _ [] initState).2.2.1 (by decide))⟩

/-- Claim C9: every History Store dispatch — the seven `history_*`
actions as well as any unrecognized action — answers with status `ok` or
`skip`, never `error` (file reads are modelled by the quantified
`none`/empty inputs, i.e. treated as absence of data; writes never
influence the returned status). -/
theorem history_dispatch_never_errors (a : HAction) (s : HState) :
    (dispatch a s).2.status = "ok" ∨ (dispatch a s).2.status = "skip" := by
  rcases a with ⟨t, i⟩ | raw | ro | ro | ro | ro | ⟨ro, i, raw⟩ | _
  · left; rfl
  · simp only [dispatch, handlePush]
    split
    · right; rfl
    · left; rfl
  · simp only [dispatch, handlePrev]
    split
    · right; rfl
    · left; rfl
  · simp only [dispatch, handleNext]
    split
    · right; rfl
    · split
      · left; rfl
      · left; rfl
  · simp only [dispatch, handleFirst]
    split
    · right; rfl
    · left; rfl
  · simp only [dispatch, handleLast]
    split
    · right; rfl
    · left; rfl
  · simp only [dispatch, handleDelete]
    split
    · right; rfl
    · split
      · right; rfl
      · left; rfl
  · right; rfl

end MessageHistory

/-- Claim C7: the First-Match Dispatcher returns the first non-skip
response without invoking any later handler; a thrown handler error is
converted to an `error` response and also stops the iteration; when every
handler answers skip (or there is none) the result is `skip` after all
handlers were consulted.  For `[skip, ok "x", ok "y"]` it returns
`ok "x"` having invoked only the first two handlers. -/
theorem first_match_short_circuit (pre rest hs : List ExtensionClient.HOutcome)
    (r : ExtensionClient.CResp) (m : List Char) :
    ((∀ h ∈ pre, ExtensionClient.isSkipOutcome h = true) → r.status ≠ "skip" →
      ExtensionClient.handleFirstMatch (pre ++ ExtensionClient.HOutcome.ret (some r) :: rest) =
        (r, pre.length + 1)) ∧
    ((∀ h ∈ pre, ExtensionClient.isSkipOutcome h = true) →
      ExtensionClient.handleFirstMatch (pre ++ ExtensionClient.HOutcome.thrown m :: rest) =
        (⟨"error", none, some m⟩, pre.length + 1)) ∧
    ((∀ h ∈ hs, ExtensionClient.isSkipOutcome h = true) →
      ExtensionClient.handleFirstMatch hs = (⟨"skip", none, none⟩, hs.length)) ∧
    (ExtensionClient.handleFirstMatch
        [ExtensionClient.HOutcome.ret (some ⟨"skip", none, none⟩),
         ExtensionClient.HOutcome.ret (some ⟨"ok", some ['x'], none⟩),
         ExtensionClient.HOutcome.ret (some ⟨"ok", some ['y'], none⟩)] =
      (⟨"ok", some ['x'], none⟩, 2)) := by
  refine ⟨?_, ?_, ?_, by decide⟩
  · intro hpre hr
    rw [ExtensionClient.handleFirstMatch_skips hpre]
    rw [ExtensionClient.handleFirstMatch, if_neg hr]
    simp [Nat.add_comm]
  · intro hpre
    rw [ExtensionClient.handleFirstMatch_skips hpre]
    simp [ExtensionClient.handleFirstMatch, Nat.add_comm]
  · intro hhs
    have h0 := ExtensionClient.handleFirstMatch_skips hhs []
    rw [List.append_nil] at h0
    rw [h0]
    simp [ExtensionClient.handleFirstMatch]

theorem first_match_short_circuit_witness :
    (∀ h ∈ [ExtensionClient.HOutcome.ret none], ExtensionClient.isSkipOutcome h = true) ∧
    (ExtensionClient.CResp.mk "ok" (some ['x']) none).status ≠ "skip" ∧
    ExtensionClient.handleFirstMatch ([ExtensionClient.HOutcome.ret none] ++
        ExtensionClient.HOutcome.ret (some ⟨"ok", some ['x'], none⟩) :: []) =
      (⟨"ok", some ['x'], none⟩, [ExtensionClient.HOutcome.ret none].length + 1) :=
  ⟨by decide, by decide,
    (first_match_short_circuit [ExtensionClient.HOutcome.ret none] [] []
      ⟨"ok", some ['x'], none⟩ []).1 (by decide) (by decide)⟩

/-- Claim C10: in the Config Aggregator's merge, a non-object payload
contributes nothing; entries whose value is `undefined` can be dropped
without changing the merge (so they neither overwrite nor erase earlier
contributions); for a key defined in a later payload, the later (last
defined) value wins, and otherwise the earlier payloads' result is kept;
`handleConfig` always answers status `ok`, with the empty payload when
there is no contribution. -/
theorem config_merge_semantics (α : Type) (ps l1 l2 : List (ExtensionClient.ConfigPayload α))
    (es : List (List Char × Option α)) (k : List Char)
    (outcomes : List (ExtensionClient.ConfigOutcome α)) :
    (ExtensionClient.mergeConfigPayloads (l1 ++ ExtensionClient.ConfigPayload.nonObj :: l2) =
      ExtensionClient.mergeConfigPayloads (l1 ++ l2)) ∧
    (ExtensionClient.mergeConfigPayloads (ps.map ExtensionClient.stripUndefined) =
      ExtensionClient.mergeConfigPayloads ps) ∧
    (ExtensionClient.lookupKey k
        (ExtensionClient.mergeConfigPayloads (ps ++ [ExtensionClient.ConfigPayload.obj es])) =
      (match ExtensionClient.lastDefined k es with
       | some v => some v
       | none => ExtensionClient.lookupKey k (ExtensionClient.mergeConfigPayloads ps))) ∧
    ((ExtensionClient.handleConfig outcomes).1 = "ok") ∧
    (ExtensionClient.handleConfig ([] : List (ExtensionClient.ConfigOutcome α)) = ("ok", [])) := by
  refine ⟨?_, ?_, ?_, rfl, rfl⟩
  · rw [ExtensionClient.mergeConfigPayloads, ExtensionClient.mergeConfigPayloads,
      ExtensionClient.mergePayloadsGo_append, ExtensionClient.mergePayloadsGo_append]
    rfl
  · exact ExtensionClient.mergePayloadsGo_strip ps []
  · rw [ExtensionClient.mergeConfigPayloads, ExtensionClient.mergePayloadsGo_append]
    simp only [ExtensionClient.mergePayloadsGo]
    exact ExtensionClient.lookupKey_mergeEntries es _ k

/-- Claim C2 (counterexample): an input line that fails `JSON.parse` is
answered with nothing at all — `handleLine` writes no response for it,
contradicting the claim that an `error` response is always written. -/
theorem malformed_line_unanswered_counterexample :
    (ExtensionClient.handleLine ExtensionClient.LineInput.malformed []).writes = [] := rfl

/-- Claim C2 (amended): an input line that is not parseable as JSON is
logged and silently dropped — no response of any status is written for it
— and the connection is not crashed.  A line that parses to the JSON
value `null` is also left unanswered, but there the process crashes (the
TypeError thrown at `req.log_path` is an unhandled rejection).  Every
line that parses to any other value receives exactly one response. -/
theorem malformed_line_dropped (hs hs2 hs3 : List ExtensionClient.HOutcome)
    (id : Option (List Char)) (action : String) :
    (ExtensionClient.handleLine ExtensionClient.LineInput.malformed hs).writes = [] ∧
    (ExtensionClient.handleLine ExtensionClient.LineInput.malformed hs).exits = false ∧
    (ExtensionClient.handleLine ExtensionClient.LineInput.parsedNull hs3).writes = [] ∧
    (ExtensionClient.handleLine ExtensionClient.LineInput.parsedNull hs3).exits = true ∧
    (ExtensionClient.handleLine (ExtensionClient.LineInput.valid id action) hs2).writes.length =
      1 := by
  refine ⟨rfl, rfl, rfl, rfl, ?_⟩
  simp only [ExtensionClient.handleLine]
  repeat' split
  all_goals rfl

